import Mathlib

/-!
Verification of the TSDuck PMT codec, MJD codec, joint-termination
coordinator and ForkPipe write path, as a shallow embedding of the
C++ sources (tsPMT.cpp, tsMJD.h, tsForkPipe.cpp, tspJointTermination.h)
in Lean 4.

Bytes are modelled as natural numbers; the width constraints that the
C++ integer types enforce appear as hypotheses of the theorems.
Bit operations of the source are translated with the corresponding
Nat bitwise operators.
-/

set_option maxRecDepth 10000

/-- Big-endian 16-bit read, mirroring GetUInt16 of tsMemoryUtils.h:
the first byte shifted left by 8, or-ed with the second byte. -/
def GetUInt16 (b0 b1 : Nat) : Nat := (b0 <<< 8) ||| b1

/-- Big-endian 16-bit write, mirroring PutUInt16 of tsMemoryUtils.h:
stores the high byte then the low byte, each truncated to a byte as
the uint8_t conversion does. -/
def PutUInt16 (v : Nat) : List Nat := [(v >>> 8) % 256, v % 256]

/-- Table id of a Program Map Table (TID_PMT = 0x02). -/
def TID_PMT : Nat := 0x02

/-- The null PID value 0x1FFF. -/
def PID_NULL : Nat := 0x1FFF

/-- Maximum payload size of a long PSI section (after the long header,
before the CRC): 1021 bytes. -/
def MAX_PSI_LONG_SECTION_PAYLOAD_SIZE : Nat := 1021

/-- Descriptor tags used by the PMT predicates (ETSI EN 300 468).
DID_SUBTITLING. -/
def DID_SUBTITLING : Nat := 0x59

/-- Teletext descriptor tag. -/
def DID_TELETEXT : Nat := 0x56

/-- DTS descriptor tag. Modelled from the spec: the header defining the
DID constants is not under src; value per ETSI EN 300 468. -/
def DID_DTS : Nat := 0x7B

/-- AC-3 descriptor tag (0x6A, per the spec interface list). -/
def DID_AC3 : Nat := 0x6A

/-- Enhanced AC-3 descriptor tag (0x7A, per the spec interface list). -/
def DID_ENHANCED_AC3 : Nat := 0x7A

/-- AAC descriptor tag (0x7C, per the spec interface list). -/
def DID_AAC : Nat := 0x7C

/-- A descriptor: a tag byte and a payload; its serialized form is
tag, length byte, payload bytes. -/
structure Descriptor where
  tag : Nat
  payload : List Nat
deriving DecidableEq, Repr

/-- Serialized size of one descriptor: tag byte, length byte, payload. -/
def Descriptor.size (d : Descriptor) : Nat := 2 + d.payload.length

/-- Serialized bytes of one descriptor. -/
def Descriptor.bytes (d : Descriptor) : List Nat := d.tag :: d.payload.length :: d.payload

/-- Total serialized size of a descriptor list. -/
def descsSize (ds : List Descriptor) : Nat := ds.foldr (fun d acc => d.size + acc) 0

/-- Concatenated serialized bytes of a descriptor list. -/
def descsBytes (ds : List Descriptor) : List Nat := ds.foldr (fun d acc => d.bytes ++ acc) []

/-- Modelled from the spec: DescriptorList::add(data, len) of
tsDescriptorList.cpp is not under src. Parses consecutive (tag, length,
payload) TLVs from a byte area and appends them in order; malformed
trailing bytes (a length running past the end) are discarded. -/
def descsAdd : List Nat → List Descriptor
  | t :: l :: rest =>
    if l ≤ rest.length then ⟨t, rest.take l⟩ :: descsAdd (rest.drop l) else []
  | _ => []
termination_by l => l.length
decreasing_by
  simp only [List.length_cons, List.length_drop]
  omega

/-- Modelled from the spec: the descriptor-serializing half of
DescriptorList::lengthSerialize. Emits, in order, the descriptors that
fit in the remaining space, stopping at the first one that does not;
returns the bytes and how many descriptors were serialized. -/
def serializeFit : Nat → List Descriptor → List Nat × Nat
  | _, [] => ([], 0)
  | remain, d :: t =>
    if d.size ≤ remain then
      let r := serializeFit (remain - d.size) t
      (d.bytes ++ r.1, r.2 + 1)
    else ([], 0)

/-- Modelled from the spec: DescriptorList::lengthSerialize(addr, size)
is not under src. Writes a 12-bit length prefix (with the 4 reserved
top bits set) followed by the descriptors that fit, and returns the
serialized bytes together with the index of the first descriptor that
did not fit (equal to the count on success). -/
def lengthSerialize (ds : List Descriptor) (remain : Nat) : List Nat × Nat :=
  if remain < 2 then ([], 0)
  else
    let r := serializeFit (remain - 2) ds
    (PutUInt16 (0xF000 ||| r.1.length) ++ r.1, r.2)

/-- One elementary stream entry of a PMT: stream type and descriptor
list (ts::PMT::Stream). -/
structure PMT.Stream where
  stream_type : Nat := 0
  descs : List Descriptor := []
deriving DecidableEq, Repr

/-- A PSI section as the PMT codec consumes and produces it: long
header fields and the payload bytes. -/
structure Section where
  table_id : Nat
  tid_ext : Nat
  version : Nat
  is_current : Bool
  payload : List Nat
deriving DecidableEq, Repr

/-- A binary table: validity flag, table id and the sections. -/
structure BinaryTable where
  valid : Bool
  table_id : Nat
  sections : List Section
deriving DecidableEq, Repr

/-- The PMT value: validity flag, long-table header fields, PCR PID,
program descriptors and the PID-to-stream map. The std::map of the
source is modelled as an association list sorted by strictly ascending
PID, which is the iteration order of the C++ map. -/
structure PMT where
  _is_valid : Bool
  version : Nat
  is_current : Bool
  service_id : Nat
  pcr_pid : Nat
  descs : List Descriptor
  streams : List (Nat × PMT.Stream)
deriving DecidableEq, Repr

/-- Lookup of a PID in the stream map. -/
def streamsLookup : List (Nat × PMT.Stream) → Nat → Option PMT.Stream
  | [], _ => none
  | e :: t, pid => if e.1 = pid then some e.2 else streamsLookup t pid

/-- Insertion into the sorted stream map, replacing an existing binding:
the effect of writing through the reference returned by streams[pid]. -/
def insertSorted (pid : Nat) (s : PMT.Stream) : List (Nat × PMT.Stream) → List (Nat × PMT.Stream)
  | [] => [(pid, s)]
  | e :: t =>
    if pid < e.1 then (pid, s) :: e :: t
    else if pid = e.1 then (pid, s) :: t
    else e :: insertSorted pid s t

/-- The elementary-stream while loop of ts::PMT::deserialize: while at
least 5 bytes remain, read stream_type, the 13-bit PID and the 12-bit
ES_info_length (clamped to the remaining size), fetch or create the
map entry for the PID, overwrite its stream_type and append the parsed
descriptors to its descriptor list. -/
def parseStreams : List Nat → List (Nat × PMT.Stream) → List (Nat × PMT.Stream)
  | b0 :: b1 :: b2 :: b3 :: b4 :: rest, m =>
    let pid := GetUInt16 b1 b2 &&& 0x1FFF
    let old := (streamsLookup m pid).getD {}
    let ilen := min (GetUInt16 b3 b4 &&& 0x0FFF) rest.length
    parseStreams (rest.drop ilen) (insertSorted pid ⟨b0, old.descs ++ descsAdd (rest.take ilen)⟩ m)
  | _, m => m
termination_by l _ => l.length
decreasing_by
  simp only [List.length_cons, List.length_drop]
  omega

/-- The per-section body of ts::PMT::deserialize, folded over the
section list. Each section overwrites version, is_current and
service_id, then requires 2 bytes for the PCR PID and 2 bytes for
program_info_length; a shorter payload returns immediately, leaving
_is_valid false. After the last section _is_valid is set to true. -/
def PMT.deserializeSections : PMT → List Section → PMT
  | p, [] => { p with _is_valid := true }
  | p, sect :: rest =>
    let p1 := { p with version := sect.version, is_current := sect.is_current,
                       service_id := sect.tid_ext }
    match sect.payload with
    | b0 :: b1 :: tail =>
      let p2 := { p1 with pcr_pid := GetUInt16 b0 b1 &&& 0x1FFF }
      match tail with
      | b2 :: b3 :: tail2 =>
        let ilen := min (GetUInt16 b2 b3 &&& 0x0FFF) tail2.length
        let p3 := { p2 with descs := p2.descs ++ descsAdd (tail2.take ilen),
                            streams := parseStreams (tail2.drop ilen) p2.streams }
        PMT.deserializeSections p3 rest
      | _ => p2
    | _ => p1

/-- ts::PMT::deserialize, starting from the state the constructor from
a binary table establishes (cleared content, default version 0 and
is_current true). Returns immediately when the table is invalid or its
table id is not TID_PMT. -/
def PMT.deserialize (table : BinaryTable) : PMT :=
  let p0 : PMT := ⟨false, 0, true, 0, PID_NULL, [], []⟩
  if table.valid = false ∨ table.table_id ≠ TID_PMT then p0
  else PMT.deserializeSections p0 table.sections

/-- The elementary-stream for loop of ts::PMT::serialize: iterates the
stream map while at least 5 bytes remain (an entry reached with fewer
is silently omitted), writes stream_type and the PID with top bits
set, serializes the descriptor list with its length prefix, and
returns none (table left invalid) when the descriptors of an entry do
not all fit. -/
def serializeStreams : List (Nat × PMT.Stream) → Nat → Option (List Nat)
  | [], _ => some []
  | (pid, s) :: t, remain =>
    if remain < 5 then some []
    else
      let r := lengthSerialize s.descs (remain - 3)
      if r.2 ≠ s.descs.length then none
      else
        match serializeStreams t (remain - 3 - r.1.length) with
        | none => none
        | some rest => some (s.stream_type :: PutUInt16 (pid ||| 0xE000) ++ r.1 ++ rest)

/-- ts::PMT::serialize: clears the table, and when the PMT is valid
builds a single long section from the PCR PID (top 3 bits set), the
program descriptor list (whose lengthSerialize result is not checked)
and the stream entries. When the stream loop fails the cleared
(invalid, empty) table is returned. -/
def PMT.serialize (p : PMT) : BinaryTable :=
  if p._is_valid = false then ⟨false, 0xFF, []⟩
  else
    let pr := lengthSerialize p.descs (MAX_PSI_LONG_SECTION_PAYLOAD_SIZE - 2)
    match serializeStreams p.streams (MAX_PSI_LONG_SECTION_PAYLOAD_SIZE - 2 - pr.1.length) with
    | none => ⟨false, 0xFF, []⟩
    | some sb =>
      ⟨true, TID_PMT,
        [⟨TID_PMT, p.service_id, p.version, p.is_current,
          PutUInt16 (p.pcr_pid ||| 0xE000) ++ pr.1 ++ sb⟩]⟩

/-- Combined payload size a PMT needs in one section: 2 bytes PCR PID,
2 bytes program_info_length, the program descriptors, and 5 bytes plus
descriptors for every stream entry. -/
def pmtPayloadSize (p : PMT) : Nat :=
  4 + descsSize p.descs + p.streams.foldr (fun e acc => 5 + descsSize e.2.descs + acc) 0

/-- DescriptorList::search(tag, start) restricted to start = 0:
index of the first descriptor with the tag, or the count if none.
Modelled from the spec (lookup is by tag, in order). -/
def searchTag : List Descriptor → Nat → Nat
  | [], _ => 0
  | d :: t, tag => if d.tag = tag then 0 else searchTag t tag + 1

/-- The inner while loop of ts::PMT::Stream::isSubtitles: scan the
Teletext descriptor payload in 5-byte language entries while at least
5 bytes remain; the teletext type is byte 3 shifted right by 3, and
types 0x02 and 0x05 are subtitles. -/
def ttxHasSubtitleType : List Nat → Bool
  | _ :: _ :: _ :: d3 :: _ :: rest =>
    if d3 >>> 3 = 0x02 ∨ d3 >>> 3 = 0x05 then true else ttxHasSubtitleType rest
  | _ => false

/-- The outer for loop of ts::PMT::Stream::isSubtitles: visit every
Teletext descriptor in order (the source iterates with
descs.search(DID_TELETEXT, index)) and return true as soon as one has
a subtitle-typed language entry. -/
def hasTtxSubtitles : List Descriptor → Bool
  | [] => false
  | d :: t =>
    if d.tag = DID_TELETEXT ∧ ttxHasSubtitleType d.payload = true then true
    else hasTtxSubtitles t

/-- ts::PMT::Stream::isSubtitles: a Subtitling descriptor always
indicates subtitles; otherwise a Teletext descriptor with a
subtitle-typed language entry does. -/
def PMT.Stream.isSubtitles (s : PMT.Stream) : Bool :=
  if searchTag s.descs DID_SUBTITLING < s.descs.length then true
  else hasTtxSubtitles s.descs

/-- ts::PMT::Stream::isAudio: the stream type is an audio type, or the
descriptor list holds a DTS, AC-3, Enhanced-AC-3 or AAC descriptor.
IsAudioST (tsStreamType.h) is not under src, so the audio stream-type
predicate is a parameter. -/
def PMT.Stream.isAudio (audioST : Nat → Bool) (s : PMT.Stream) : Bool :=
  audioST s.stream_type
  || decide (searchTag s.descs DID_DTS < s.descs.length)
  || decide (searchTag s.descs DID_AC3 < s.descs.length)
  || decide (searchTag s.descs DID_ENHANCED_AC3 < s.descs.length)
  || decide (searchTag s.descs DID_AAC < s.descs.length)

/-- The property the claim about isSubtitles names for one Teletext
payload: some complete 5-byte language entry whose type byte shifted
right by 3 equals 2 or 5. -/
def hasSubtitleEntry (l : List Nat) : Prop :=
  ∃ i, 5 * i + 5 ≤ l.length ∧ (l.getD (5 * i + 3) 0 >>> 3 = 2 ∨ l.getD (5 * i + 3) 0 >>> 3 = 5)

/-- A UTC time as the MJD codec uses it. -/
structure Time where
  year : Nat
  month : Nat
  day : Nat
  hour : Nat
  minute : Nat
  second : Nat
deriving DecidableEq, Repr

/-- Gregorian leap year. -/
def isLeapYear (y : Nat) : Bool := (y % 4 = 0 ∧ y % 100 ≠ 0) ∨ y % 400 = 0

/-- Days in a Gregorian month. -/
def daysInMonth (y m : Nat) : Nat :=
  if m = 2 then (if isLeapYear y then 29 else 28)
  else if m = 4 ∨ m = 6 ∨ m = 9 ∨ m = 11 then 30
  else 31

/-- A well-formed UTC time: a real Gregorian date and a time of day. -/
def validTime (t : Time) : Bool :=
  1 ≤ t.month ∧ t.month ≤ 12 ∧ 1 ≤ t.day ∧ t.day ≤ daysInMonth t.year t.month
    ∧ t.hour < 24 ∧ t.minute < 60 ∧ t.second < 60

/-- BCD encoding of a two-digit value. -/
def encodeBCD (x : Nat) : Nat := ((x / 10) <<< 4) ||| (x % 10)

/-- BCD decoding; fails when either nibble is not a decimal digit. -/
def decodeBCD (b : Nat) : Option Nat :=
  if b >>> 4 ≤ 9 ∧ b &&& 0xF ≤ 9 then some ((b >>> 4) * 10 + (b &&& 0xF)) else none

/-- Modelled from the spec: the date-to-MJD formula inverting the
decode algorithm of section 4.1 (tsMJD.cpp is not under src).
MJD = 14956 + D + floor((Y - 1900 - L) * 365.25) + floor((M + 1 + 12 L) * 30.6001)
with L = 1 for January and February, else 0. The fractional constants
are scaled to exact integer divisions. Only used on dates on or after
1900-03-01, where every operand is nonnegative. -/
def mjdOfDate (y m d : Nat) : Nat :=
  let l := if m ≤ 2 then 1 else 0
  14956 + d + (y - 1900 - l) * 36525 / 100 + (m + 1 + 12 * l) * 306001 / 10000

/-- Modelled from the spec: the MJD-to-date algorithm of section 4.1,
with the real-number floors computed exactly over Int:
YP = floor((MJD - 15078.2) / 365.25), then
MP = floor((MJD - 14956.1 - floor(YP * 365.25)) / 30.6001),
D = MJD - 14956 - floor(YP * 365.25) - floor(MP * 30.6001),
K = 1 if MP is 14 or 15 else 0, Y = 1900 + YP + K, M = MP - 1 - 12 K. -/
def mjdYPZ (mjd : Nat) : Int := Int.fdiv ((mjd : Int) * 20 - 301564) 7305

/-- floor(YP times 365.25) over Int. -/
def mjdYPDZ (mjd : Nat) : Int := Int.fdiv (mjdYPZ mjd * 36525) 100

/-- The M-prime floor of the decode algorithm over Int. -/
def mjdMPZ (mjd : Nat) : Int :=
  Int.fdiv ((mjd : Int) * 10000 - 149561000 - mjdYPDZ mjd * 10000) 306001

/-- floor(MP times 30.6001) over Int. -/
def mjdMPDZ (mjd : Nat) : Int := Int.fdiv (mjdMPZ mjd * 306001) 10000

/-- The decoded (year, month, day) triple of the algorithm above:
K = 1 if MP is 14 or 15 else 0, Y = 1900 + YP + K, M = MP - 1 - 12 K,
D = MJD - 14956 - floor(YP times 365.25) - floor(MP times 30.6001). -/
def decodeDate (mjd : Nat) : Int × Int × Int :=
  let k : Int := if mjdMPZ mjd = 14 ∨ mjdMPZ mjd = 15 then 1 else 0
  (1900 + mjdYPZ mjd + k, mjdMPZ mjd - 1 - 12 * k,
    (mjd : Int) - 14956 - mjdYPDZ mjd - mjdMPDZ mjd)

/-- The date 1900-03-01 comparison the spec states for EncodeMJD:
true when the date of t is on or after 1900-03-01. -/
def onOrAfter1900Mar1 (t : Time) : Bool :=
  1900 < t.year ∨ (t.year = 1900 ∧ 3 ≤ t.month)

/-- Modelled from the spec: ts::DecodeMJD (tsMJD.cpp is not under
src). Accepts 2, 4 or 5 bytes: bytes 0..1 are the MJD day count,
bytes 2.. are BCD hour, minute, second when present (absent fields are
zero). Fails for any other size or for invalid BCD, per section 4.1
and the tsMJD.h contract of returning false on error. -/
def DecodeMJD (b : List Nat) : Option Time :=
  let date := fun (b0 b1 : Nat) => decodeDate (GetUInt16 b0 b1)
  match b with
  | [b0, b1] =>
    let (y, m, d) := date b0 b1
    some ⟨y.toNat, m.toNat, d.toNat, 0, 0, 0⟩
  | [b0, b1, bh, bm] =>
    match decodeBCD bh, decodeBCD bm with
    | some h, some mi =>
      let (y, m, d) := date b0 b1
      some ⟨y.toNat, m.toNat, d.toNat, h, mi, 0⟩
    | _, _ => none
  | [b0, b1, bh, bm, bs] =>
    match decodeBCD bh, decodeBCD bm, decodeBCD bs with
    | some h, some mi, some s =>
      let (y, m, d) := date b0 b1
      some ⟨y.toNat, m.toNat, d.toNat, h, mi, s⟩
    | _, _, _ => none
  | _ => none

/-- Modelled from the spec: ts::EncodeMJD (tsMJD.cpp is not under
src). Per section 4.1 it fails for a size outside 2, 4, 5, for a date
before 1900-03-01, and for size 2 with a non-zero time of day; per the
tsMJD.h contract it fails when the day count does not fit the two-byte
field. Writes the 16-bit day count then the BCD time fields the size
has room for. -/
def EncodeMJD (t : Time) (size : Nat) : Option (List Nat) :=
  if ¬(size = 2 ∨ size = 4 ∨ size = 5) then none
  else if onOrAfter1900Mar1 t = false then none
  else if size = 2 ∧ ¬(t.hour = 0 ∧ t.minute = 0 ∧ t.second = 0) then none
  else
    let mjd := mjdOfDate t.year t.month t.day
    if 0xFFFF < mjd then none
    else if size = 2 then some [mjd >>> 8, mjd &&& 0xFF]
    else if size = 4 then some [mjd >>> 8, mjd &&& 0xFF, encodeBCD t.hour, encodeBCD t.minute]
    else some [mjd >>> 8, mjd &&& 0xFF, encodeBCD t.hour, encodeBCD t.minute, encodeBCD t.second]

/-- The maximum PacketCounter value (uint64_t). -/
def PKT_MAX : Nat := 2 ^ 64 - 1

/-- The process-wide joint-termination counters of
ts::tsp::JointTermination (tspJointTermination.h): plugins using joint
termination, those not yet completed, and the highest packet count of
the completed ones. -/
structure JTState where
  users : Nat
  remaining : Nat
  highest : Nat
deriving DecidableEq, Repr

/-- Modelled from the spec: JointTermination::jointTerminate
(implementation not under src). Per section 4.7, a completing stage
decrements the remaining count and raises the recorded highest packet
count to its own totalPackets. -/
def jointTerminate (st : JTState) (totalPackets : Nat) : JTState :=
  ⟨st.users, st.remaining - 1, max st.highest totalPackets⟩

/-- Modelled from the spec: totalPacketsBeforeJointTermination
(implementation not under src). Per section 4.7 it returns highest_pkt
once remaining is zero, else the maximum packet counter value. -/
def totalPacketsBeforeJointTermination (st : JTState) : Nat :=
  if st.remaining = 0 then st.highest else PKT_MAX

/-- The errno value EPIPE (broken pipe) on Linux. -/
def EPIPE : Nat := 32

/-- The errno value EINTR (interrupted system call) on Linux. -/
def EINTR : Nat := 4

/-- The ForkPipe state fields ts::ForkPipe::write consults. -/
structure PipeState where
  is_open : Bool
  use_pipe : Bool
  broken_pipe : Bool
  ignore_abort : Bool
deriving DecidableEq, Repr

/-- Outcome of one OS-level write call on the pipe, supplied as an
oracle: either it wrote n bytes (n positive), or it failed with an
errno value. -/
inductive OSWrite where
  | ok (n : Nat)
  | err (errno : Nat)
deriving DecidableEq, Repr

/-- Result of ts::ForkPipe::write: the returned Bool, the updated pipe
state, the total bytes handed to the OS successfully, whether an
error-level message was reported, and how many OS writes succeeded. -/
structure WriteResult where
  ret : Bool
  state : PipeState
  written : Nat
  reported : Bool
  succ_writes : Nat
deriving DecidableEq, Repr

/-- The UNIX write loop of ts::ForkPipe::write: while bytes remain and
no error occurred, call write(2). A positive return of n advances the
data pointer by n but subtracts max(remain, n) - that is, all of
remain - from the remaining count; a failure with errno EINTR retries,
any other failure ends the loop with the error flag set. Returns
(error, errno, bytes written, successful writes), or none when the
oracle list runs out while the loop would continue. -/
def writeLoop : Nat → List OSWrite → Option (Bool × Nat × Nat × Nat)
  | 0, _ => some (false, 0, 0, 0)
  | _ + 1, [] => none
  | remain + 1, OSWrite.ok n :: rest =>
    if 0 < n then
      match writeLoop (remain + 1 - max (remain + 1) n) rest with
      | none => none
      | some (e, c, w, s) => some (e, c, n + w, s + 1)
    else none
  | remain + 1, OSWrite.err code :: rest =>
    if code = EINTR then writeLoop (remain + 1) rest
    else some (true, code, 0, 0)
termination_by _ oracle => oracle.length

/-- ts::ForkPipe::write (UNIX branch): rejects a pipe that is not open
or was created without a pipe (reporting an error), returns the
ignore-abort flag at once when the pipe is already broken, and
otherwise runs the write loop. On a loop error the broken-pipe flag
becomes (errno = EPIPE); a non-broken-pipe error is reported and fails,
a broken pipe with ignore-abort returns success without an error
report, and a broken pipe without ignore-abort fails silently. -/
def ForkPipe.write (st : PipeState) (size : Nat) (oracle : List OSWrite) : Option WriteResult :=
  if st.is_open = false then some ⟨false, st, 0, true, 0⟩
  else if st.use_pipe = false then some ⟨false, st, 0, true, 0⟩
  else if st.broken_pipe = true then some ⟨st.ignore_abort, st, 0, false, 0⟩
  else
    match writeLoop size oracle with
    | none => none
    | some (error, code, written, succ) =>
      if error = false then some ⟨true, st, written, false, succ⟩
      else
        if decide (code = EPIPE) = false then
          some ⟨false, { st with broken_pipe := decide (code = EPIPE) }, written, true, succ⟩
        else if st.ignore_abort = true then
          some ⟨true, { st with broken_pipe := decide (code = EPIPE) }, written, false, succ⟩
        else some ⟨false, { st with broken_pipe := decide (code = EPIPE) }, written, false, succ⟩

/-- Size of the longest prefix of a descriptor list that fits in the
given space, mirroring the greedy fit of lengthSerialize. -/
def fitSize : Nat → List Descriptor → Nat
  | _, [] => 0
  | remain, d :: t =>
    if d.size ≤ remain then d.size + fitSize (remain - d.size) t else 0

/-- Size-level account of the elementary-stream serialization loop:
true when no entry that is reached with at least 5 bytes remaining has
a descriptor list that fails to fit after its 3-byte header and 2-byte
length prefix. Entries reached with fewer than 5 bytes remaining are
skipped by the loop, so they never make it fail. -/
def streamsFit : Nat → List (Nat × PMT.Stream) → Bool
  | _, [] => true
  | remain, (_, s) :: t =>
    if remain < 5 then true
    else if descsSize s.descs + 2 ≤ remain - 3 then
      streamsFit (remain - 5 - descsSize s.descs) t
    else false

/-- Total serialized size of a list of stream entries. -/
def streamsSize (ss : List (Nat × PMT.Stream)) : Nat :=
  ss.foldr (fun e acc => 5 + descsSize e.2.descs + acc) 0

/-- The bytes the serialization loop emits for a list of stream
entries when everything fits. -/
def streamsBytes (ss : List (Nat × PMT.Stream)) : List Nat :=
  ss.foldr
    (fun e acc =>
      e.2.stream_type :: PutUInt16 (e.1 ||| 0xE000)
        ++ PutUInt16 (0xF000 ||| descsSize e.2.descs) ++ descsBytes e.2.descs ++ acc)
    []

/-- The wire form of one elementary-stream entry as the deserializer
sees it: stream type byte, 13-bit PID with the top bits set, 12-bit
ES_info_length with the top bits set, then the info bytes. -/
def esEntryBytes (st pid : Nat) (info : List Nat) : List Nat :=
  st :: PutUInt16 (pid ||| 0xE000) ++ PutUInt16 (0xF000 ||| info.length) ++ info

/-- A PMT carrying 204 descriptor-less streams: its payload needs
1024 bytes, 3 more than one long section can hold. -/
def pmt204 : PMT :=
  ⟨true, 1, true, 1, 0x100, [], (List.range 204).map (fun i => (i, ⟨2, []⟩))⟩

/-- A binary table whose single PMT section lists the same elementary
PID 0x0101 twice: first with stream type 0x02 and a descriptor with
tag 0x05, then with stream type 0x1B and a descriptor with tag 0x0A. -/
def dupPidTable : BinaryTable :=
  ⟨true, 2, [⟨2, 7, 1, true,
    [0xE1, 0x00, 0xF0, 0x00,
     0x02, 0xE1, 0x01, 0xF0, 0x02, 0x05, 0x00,
     0x1B, 0xE1, 0x01, 0xF0, 0x02, 0x0A, 0x00]⟩]⟩

/-- The Y-prime floor of the decode algorithm, over Nat: valid for
day counts of 1900-03-01 or later, where the numerator is positive. -/
def mjdYP (mjd : Nat) : Nat := (mjd * 20 - 301564) / 7305

/-- floor(YP times 365.25), over Nat. -/
def mjdYPD (mjd : Nat) : Nat := mjdYP mjd * 36525 / 100

/-- The M-prime floor of the decode algorithm, over Nat. -/
def mjdMP (mjd : Nat) : Nat := (mjd * 10000 - 149561000 - mjdYPD mjd * 10000) / 306001

/-- floor(MP times 30.6001), over Nat. -/
def mjdMPD (mjd : Nat) : Nat := mjdMP mjd * 306001 / 10000

/-- The decode date algorithm computed over Nat; it agrees with
decodeDate on every day count of 1900-03-01 or later. -/
def decodeDateN (mjd : Nat) : Nat × Nat × Nat :=
  let k := if mjdMP mjd = 14 ∨ mjdMP mjd = 15 then 1 else 0
  (1900 + mjdYP mjd + k, mjdMP mjd - 1 - 12 * k, mjd - 14956 - mjdYPD mjd - mjdMPD mjd)

/-- Per-month checker for the MJD date round trip: for month m of the
year 1900 + y (on or after March 1900), decoding the day count of the
first of the month restores the date, and the YP and MP floors agree
at the first and last day of the month, so they are constant on it. -/
def monthCheck (y m : Nat) : Bool :=
  if 1 ≤ m ∧ m ≤ 12 ∧ (y = 0 → 3 ≤ m) then
    decide (decodeDateN (mjdOfDate (1900 + y) m 0 + 1) = (1900 + y, m, 1)) &&
    decide (mjdYP (mjdOfDate (1900 + y) m 0 + 1)
      = mjdYP (mjdOfDate (1900 + y) m 0 + daysInMonth (1900 + y) m)) &&
    decide (mjdMP (mjdOfDate (1900 + y) m 0 + 1)
      = mjdMP (mjdOfDate (1900 + y) m 0 + daysInMonth (1900 + y) m))
  else true

theorem shiftLeft_or_eq_add (k a b : Nat) (hb : b < 2 ^ k) : (a <<< k) ||| b = 2 ^ k * a + b := by
  rw [Nat.shiftLeft_eq, Nat.mul_comm, ← Nat.mul_add_lt_is_or hb]

theorem GetUInt16_eq (a b : Nat) (hb : b < 256) : GetUInt16 a b = 256 * a + b := by
  unfold GetUInt16
  exact shiftLeft_or_eq_add 8 a b hb

theorem shiftRight8_eq (v : Nat) : v >>> 8 = v / 256 := by
  rw [Nat.shiftRight_eq_div_pow]

theorem shiftRight4_eq (v : Nat) : v >>> 4 = v / 16 := by
  rw [Nat.shiftRight_eq_div_pow]

theorem shiftRight3_eq (v : Nat) : v >>> 3 = v / 8 := by
  rw [Nat.shiftRight_eq_div_pow]

theorem and_1FFF_eq (x : Nat) : x &&& 0x1FFF = x % 0x2000 := by
  have h := Nat.and_pow_two_sub_one_eq_mod x 13
  norm_num at h
  exact h

theorem and_0FFF_eq (x : Nat) : x &&& 0x0FFF = x % 0x1000 := by
  have h := Nat.and_pow_two_sub_one_eq_mod x 12
  norm_num at h
  exact h

theorem and_FF_eq (x : Nat) : x &&& 0xFF = x % 256 := by
  have h := Nat.and_pow_two_sub_one_eq_mod x 8
  norm_num at h
  exact h

theorem and_F_eq (x : Nat) : x &&& 0xF = x % 16 := by
  have h := Nat.and_pow_two_sub_one_eq_mod x 4
  norm_num at h
  exact h

theorem lor_E000_eq (p : Nat) (h : p < 0x2000) : p ||| 0xE000 = 0xE000 + p := by
  have h2 := shiftLeft_or_eq_add 13 7 p (by omega)
  rw [Nat.shiftLeft_eq] at h2
  norm_num at h2
  rw [Nat.lor_comm]
  exact h2

theorem lor_F000_eq (v : Nat) (h : v < 0x1000) : 0xF000 ||| v = 0xF000 + v := by
  have h2 := shiftLeft_or_eq_add 12 15 v (by omega)
  rw [Nat.shiftLeft_eq] at h2
  norm_num at h2
  exact h2

theorem PutUInt16_eq (v : Nat) : PutUInt16 v = [v / 256 % 256, v % 256] := by
  unfold PutUInt16
  rw [shiftRight8_eq]

theorem pcr_recover (p : Nat) (h : p < 0x2000) :
    GetUInt16 ((p ||| 0xE000) / 256 % 256) ((p ||| 0xE000) % 256) &&& 0x1FFF = p := by
  rw [lor_E000_eq p h, GetUInt16_eq _ _ (by omega), and_1FFF_eq]
  omega

theorem len_recover (v : Nat) (h : v < 0x1000) :
    GetUInt16 ((0xF000 ||| v) / 256 % 256) ((0xF000 ||| v) % 256) &&& 0x0FFF = v := by
  rw [lor_F000_eq v h, GetUInt16_eq _ _ (by omega), and_0FFF_eq]
  omega


theorem writeLoop_succ_le_one :
    ∀ (oracle : List OSWrite) (remain : Nat) (e : Bool) (c w s : Nat),
      writeLoop remain oracle = some (e, c, w, s) → s ≤ 1 := by
  intro oracle
  induction oracle with
  | nil =>
    intro remain e c w s h
    match remain with
    | 0 =>
      simp only [writeLoop, Option.some.injEq, Prod.mk.injEq] at h
      omega
    | _ + 1 => simp [writeLoop] at h
  | cons o rest ih =>
    intro remain e c w s h
    match remain with
    | 0 =>
      simp only [writeLoop, Option.some.injEq, Prod.mk.injEq] at h
      omega
    | r + 1 =>
      match o with
      | OSWrite.ok n =>
        simp only [writeLoop] at h
        by_cases hn : 0 < n
        · rw [if_pos hn] at h
          have hz : r + 1 - max (r + 1) n = 0 := by omega
          rw [hz] at h
          simp only [writeLoop, Option.some.injEq, Prod.mk.injEq] at h
          omega
        · rw [if_neg hn] at h
          exact absurd h (by simp)
      | OSWrite.err code =>
        simp only [writeLoop] at h
        by_cases hc : code = EINTR
        · rw [if_pos hc] at h
          exact ih _ _ _ _ _ h
        · rw [if_neg hc] at h
          simp only [Option.some.injEq, Prod.mk.injEq] at h
          omega

theorem forkpipe_succ_le (st : PipeState) (size : Nat) (oracle : List OSWrite)
    (r : WriteResult) (h : ForkPipe.write st size oracle = some r) : r.succ_writes ≤ 1 := by
  unfold ForkPipe.write at h
  split at h
  · cases h; exact Nat.zero_le 1
  · split at h
    · cases h; exact Nat.zero_le 1
    · split at h
      · cases h; exact Nat.zero_le 1
      · split at h
        · exact absurd h (by simp)
        · rename_i e c w s heq
          have hs := writeLoop_succ_le_one oracle size e c w s heq
          split at h
          · cases h; exact hs
          · split at h
            · cases h; exact hs
            · split at h
              · cases h; exact hs
              · cases h; exact hs

/-- Claim C4: in ForkPipe::write, for an open pipe and a positive
size, at most one OS-level write ever succeeds per call: after a
successful write of n bytes the loop subtracts max(remain, n), that
is, all of remain, so when n < size the remaining bytes are never
written and write still returns true having written exactly n bytes. -/
theorem forkpipe_write_single (st : PipeState) (size n : Nat) (rest : List OSWrite)
    (hopen : st.is_open = true) (hpipe : st.use_pipe = true)
    (hbroken : st.broken_pipe = false) (hn : 0 < n) (hns : n ≤ size) (hsize : 0 < size) :
    ForkPipe.write st size (OSWrite.ok n :: rest) = some ⟨true, st, n, false, 1⟩ ∧
    (∀ (oracle : List OSWrite) (r : WriteResult),
        ForkPipe.write st size oracle = some r → r.succ_writes ≤ 1) := by
  refine ⟨?_, fun oracle r h => forkpipe_succ_le st size oracle r h⟩
  have hw : writeLoop size (OSWrite.ok n :: rest) = some (false, 0, n, 1) := by
    match size, hsize with
    | sz + 1, _ =>
      simp only [writeLoop, if_pos hn]
      have hz : sz + 1 - max (sz + 1) n = 0 := by omega
      rw [hz]
      simp [writeLoop]
  unfold ForkPipe.write
  rw [hopen, hpipe, hbroken, hw]
  simp

/-- Witness for claim C4 at a concrete pipe state, size 10 and a
successful 3-byte OS write. -/
theorem forkpipe_write_single_witness :
    ForkPipe.write ⟨true, true, false, false⟩ 10 [OSWrite.ok 3]
      = some ⟨true, ⟨true, true, false, false⟩, 3, false, 1⟩ := by
  exact (forkpipe_write_single ⟨true, true, false, false⟩ 10 3 [] rfl rfl rfl
    (by decide) (by decide) (by decide)).1

/-- Claim C10: ForkPipe::write on an open pipe demotes a broken pipe
(errno EPIPE) when ignore-abort is set, returning true without an
error report; once the pipe is marked broken every later write
returns the ignore-abort flag without calling the OS; and a write
failure other than the broken-pipe errno (and other than the EINTR
retry) is reported as an error and returns false. -/
theorem forkpipe_broken_pipe_demotion (st : PipeState) (size code : Nat) (oracle : List OSWrite)
    (hopen : st.is_open = true) (hpipe : st.use_pipe = true) (hsize : 0 < size) :
    (st.broken_pipe = false → st.ignore_abort = true →
      ForkPipe.write st size [OSWrite.err EPIPE]
        = some ⟨true, { st with broken_pipe := true }, 0, false, 0⟩) ∧
    (st.broken_pipe = true →
      ForkPipe.write st size oracle = some ⟨st.ignore_abort, st, 0, false, 0⟩) ∧
    (st.broken_pipe = false → code ≠ EINTR → code ≠ EPIPE →
      ForkPipe.write st size [OSWrite.err code]
        = some ⟨false, st, 0, true, 0⟩) := by
  obtain ⟨o, u, b, a⟩ := st
  simp only [PipeState.is_open] at hopen
  simp only [PipeState.use_pipe] at hpipe
  subst hopen hpipe
  have hloop : ∀ c : Nat, c ≠ EINTR →
      writeLoop size [OSWrite.err c] = some (true, c, 0, 0) := by
    intro c hc
    match size, hsize with
    | sz + 1, _ => simp [writeLoop, hc]
  refine ⟨?_, ?_, ?_⟩
  · intro hb hi
    simp only [PipeState.broken_pipe] at hb
    simp only [PipeState.ignore_abort] at hi
    subst hb hi
    rw [ForkPipe.write, hloop EPIPE (by decide)]
    simp [EPIPE]
  · intro hb
    simp only [PipeState.broken_pipe] at hb
    subst hb
    rw [ForkPipe.write]
    simp
  · intro hb hci hcp
    simp only [PipeState.broken_pipe] at hb
    subst hb
    rw [ForkPipe.write, hloop code hci]
    simp [hcp]

/-- Witness for claim C10: the EPIPE demotion with ignore-abort set,
a later write on the broken pipe, and an EACCES (13) failure, on
concrete pipe states of size-5 writes. -/
theorem forkpipe_broken_pipe_demotion_witness :
    ForkPipe.write ⟨true, true, false, true⟩ 5 [OSWrite.err EPIPE]
      = some ⟨true, ⟨true, true, true, true⟩, 0, false, 0⟩ ∧
    ForkPipe.write ⟨true, true, true, true⟩ 5 []
      = some ⟨true, ⟨true, true, true, true⟩, 0, false, 0⟩ ∧
    ForkPipe.write ⟨true, true, false, true⟩ 5 [OSWrite.err 13]
      = some ⟨false, ⟨true, true, false, true⟩, 0, true, 0⟩ :=
  ⟨(forkpipe_broken_pipe_demotion ⟨true, true, false, true⟩ 5 13 [] rfl rfl
      (by decide)).1 rfl rfl,
   (forkpipe_broken_pipe_demotion ⟨true, true, true, true⟩ 5 13 [] rfl rfl
      (by decide)).2.1 rfl,
   (forkpipe_broken_pipe_demotion ⟨true, true, false, true⟩ 5 13 [] rfl rfl
      (by decide)).2.2 rfl (by decide) (by decide)⟩

theorem jt_foldl (ts : List Nat) :
    ∀ (u r h : Nat),
      ts.foldl jointTerminate ⟨u, r, h⟩ = ⟨u, r - ts.length, ts.foldl max h⟩ := by
  induction ts with
  | nil => intro u r h; simp
  | cons t ts ih =>
    intro u r h
    simp only [List.foldl_cons, jointTerminate]
    rw [ih]
    simp only [JTState.mk.injEq, List.length_cons]
    exact ⟨trivial, by omega, trivial⟩

/-- Claim C5: with n stages opted in, totalPacketsBeforeJointTermination
returns the maximum totalPackets value recorded across the
jointTerminate calls once the remaining count reaches zero, and the
maximum packet counter value while some opted-in stage has not yet
called jointTerminate. -/
theorem joint_termination_cutoff (n : Nat) (ts : List Nat) (hlen : ts.length = n) :
    totalPacketsBeforeJointTermination (ts.foldl jointTerminate ⟨n, n, 0⟩) = ts.foldl max 0 ∧
    (∀ pre suf, ts = pre ++ suf → suf ≠ [] →
      totalPacketsBeforeJointTermination (pre.foldl jointTerminate ⟨n, n, 0⟩) = PKT_MAX) := by
  constructor
  · rw [jt_foldl, totalPacketsBeforeJointTermination]
    simp [hlen]
  · intro pre suf hsplit hne
    rw [jt_foldl, totalPacketsBeforeJointTermination]
    have hlt : pre.length < n := by
      have := congrArg List.length hsplit
      simp only [List.length_append] at this
      have hs : 0 < suf.length := List.length_pos.mpr hne
      omega
    simp only [JTState.remaining]
    rw [if_neg (by omega)]

/-- Witness for claim C5: scenario S4, two joint users terminating at
totals 1000 and 1500: the cutoff is 1500 after both calls and the
maximum packet count before. -/
theorem joint_termination_cutoff_witness :
    totalPacketsBeforeJointTermination (([1000, 1500] : List Nat).foldl jointTerminate ⟨2, 2, 0⟩)
        = ([1000, 1500] : List Nat).foldl max 0 ∧
    totalPacketsBeforeJointTermination (([1000] : List Nat).foldl jointTerminate ⟨2, 2, 0⟩)
        = PKT_MAX :=
  ⟨(joint_termination_cutoff 2 [1000, 1500] rfl).1,
   (joint_termination_cutoff 2 [1000, 1500] rfl).2 [1000] [1500] rfl (by decide)⟩

theorem deserializeSections_valid (l : List Section) :
    ∀ p : PMT, p._is_valid = false →
      ((PMT.deserializeSections p l)._is_valid = true ↔ ∀ s ∈ l, 4 ≤ s.payload.length) := by
  induction l with
  | nil =>
    intro p hp
    simp [PMT.deserializeSections]
  | cons sect rest ih =>
    intro p hp
    obtain ⟨tid, ext, ver, cur, payload⟩ := sect
    match payload with
    | [] =>
      simp [PMT.deserializeSections, hp]
    | [b0] =>
      simp [PMT.deserializeSections, hp]
    | [b0, b1] =>
      simp [PMT.deserializeSections, hp]
    | [b0, b1, b2] =>
      simp [PMT.deserializeSections, hp]
    | b0 :: b1 :: b2 :: b3 :: tail2 =>
      have hrec := ih { p with
        version := ver, is_current := cur, service_id := ext,
        pcr_pid := GetUInt16 b0 b1 &&& 0x1FFF,
        descs := p.descs ++ descsAdd (tail2.take (min (GetUInt16 b2 b3 &&& 0x0FFF) tail2.length)),
        streams := parseStreams (tail2.drop (min (GetUInt16 b2 b3 &&& 0x0FFF) tail2.length)) p.streams } hp
      simp only [PMT.deserializeSections]
      rw [hrec]
      constructor
      · intro hall
        intro s hs
        rcases List.mem_cons.mp hs with h1 | h2
        · subst h1
          simp
        · exact hall s h2
      · intro hall s hs
        exact hall s (List.mem_cons_of_mem _ hs)

/-- Claim C7: PMT::deserialize is total and leaves _is_valid false
exactly when the input table is invalid, its table id is not TID_PMT,
or some section payload holds fewer than the initial 4 bytes (2 for
the PCR PID and 2 for program_info_length); in every other case it
completes with _is_valid true. -/
theorem pmt_deserialize_valid_iff (t : BinaryTable) :
    (PMT.deserialize t)._is_valid = true ↔
      (t.valid = true ∧ t.table_id = TID_PMT ∧ ∀ s ∈ t.sections, 4 ≤ s.payload.length) := by
  unfold PMT.deserialize
  split
  · rename_i hcond
    constructor
    · intro h
      exact absurd h (by simp)
    · intro ⟨hv, htid, _⟩
      rcases hcond with h | h
      · rw [hv] at h; exact absurd h (by simp)
      · exact absurd htid h
  · rename_i hcond
    push_neg at hcond
    obtain ⟨hv, htid⟩ := hcond
    rw [deserializeSections_valid t.sections _ rfl]
    have hv' : t.valid = true := by
      cases hvv : t.valid
      · exact absurd hvv hv
      · rfl
    simp [hv', htid]

theorem searchTag_lt_iff (l : List Descriptor) (tag : Nat) :
    searchTag l tag < l.length ↔ ∃ d ∈ l, d.tag = tag := by
  induction l with
  | nil => simp [searchTag]
  | cons d t ih =>
    by_cases hd : d.tag = tag
    · simp [searchTag, hd]
    · simp only [searchTag, if_neg hd, List.length_cons, List.mem_cons]
      constructor
      · intro h
        obtain ⟨e, he, het⟩ := ih.mp (by omega)
        exact ⟨e, Or.inr he, het⟩
      · rintro ⟨e, he | he, het⟩
        · subst he; exact absurd het hd
        · have := ih.mpr ⟨e, he, het⟩
          omega

/-- Claim C9: for every audio stream-type predicate, isAudio holds
exactly when the stream type is an audio type or the descriptor list
holds a DTS, AC-3, Enhanced-AC-3 or AAC descriptor; in particular a
stream of type 0x06 with an empty AC-3 descriptor is audio. -/
theorem isAudio_iff (audioST : Nat → Bool) (s : PMT.Stream) :
    (PMT.Stream.isAudio audioST s = true ↔
      audioST s.stream_type = true ∨
        ∃ d ∈ s.descs,
          d.tag = DID_DTS ∨ d.tag = DID_AC3 ∨ d.tag = DID_ENHANCED_AC3 ∨ d.tag = DID_AAC) ∧
    PMT.Stream.isAudio audioST ⟨0x06, [⟨DID_AC3, []⟩]⟩ = true := by
  constructor
  · unfold PMT.Stream.isAudio
    simp only [Bool.or_eq_true, decide_eq_true_eq, searchTag_lt_iff]
    constructor
    · rintro ((((h | ⟨d, hd, ht⟩) | ⟨d, hd, ht⟩) | ⟨d, hd, ht⟩) | ⟨d, hd, ht⟩)
      · exact Or.inl h
      · exact Or.inr ⟨d, hd, Or.inl ht⟩
      · exact Or.inr ⟨d, hd, Or.inr (Or.inl ht)⟩
      · exact Or.inr ⟨d, hd, Or.inr (Or.inr (Or.inl ht))⟩
      · exact Or.inr ⟨d, hd, Or.inr (Or.inr (Or.inr ht))⟩
    · rintro (h | ⟨d, hd, ht | ht | ht | ht⟩)
      · exact Or.inl (Or.inl (Or.inl (Or.inl h)))
      · exact Or.inl (Or.inl (Or.inl (Or.inr ⟨d, hd, ht⟩)))
      · exact Or.inl (Or.inl (Or.inr ⟨d, hd, ht⟩))
      · exact Or.inl (Or.inr ⟨d, hd, ht⟩)
      · exact Or.inr ⟨d, hd, ht⟩
  · simp [PMT.Stream.isAudio, searchTag, DID_AC3, DID_DTS]

theorem hasSubtitleEntry_cons5 (b0 b1 b2 b3 b4 : Nat) (rest : List Nat) :
    hasSubtitleEntry (b0 :: b1 :: b2 :: b3 :: b4 :: rest) ↔
      (b3 >>> 3 = 2 ∨ b3 >>> 3 = 5) ∨ hasSubtitleEntry rest := by
  unfold hasSubtitleEntry
  constructor
  · rintro ⟨i, hlen, hty⟩
    cases i with
    | zero =>
      left
      simpa using hty
    | succ j =>
      right
      refine ⟨j, ?_, ?_⟩
      · simp only [List.length_cons] at hlen
        omega
      · have hidx : 5 * (j + 1) + 3 = (5 * j + 3) + 1 + 1 + 1 + 1 + 1 := by omega
        rw [hidx] at hty
        simpa only [List.getD_cons_succ] using hty
  · rintro (h | ⟨j, hlen, hty⟩)
    · refine ⟨0, ?_, ?_⟩
      · simp only [List.length_cons]
        omega
      · simpa using h
    · refine ⟨j + 1, ?_, ?_⟩
      · simp only [List.length_cons]
        omega
      · have hidx : 5 * (j + 1) + 3 = (5 * j + 3) + 1 + 1 + 1 + 1 + 1 := by omega
        rw [hidx]
        simpa only [List.getD_cons_succ] using hty

theorem hasSubtitleEntry_short (l : List Nat) (h : l.length < 5) : ¬ hasSubtitleEntry l := by
  rintro ⟨i, hlen, _⟩
  omega

theorem ttx_iff (l : List Nat) : ttxHasSubtitleType l = true ↔ hasSubtitleEntry l := by
  induction l using ttxHasSubtitleType.induct with
  | case1 b0 b1 b2 b3 b4 rest hty =>
    rw [hasSubtitleEntry_cons5]
    simp only [ttxHasSubtitleType, if_pos hty]
    exact ⟨fun _ => Or.inl hty, fun _ => trivial⟩
  | case2 b0 b1 b2 b3 b4 rest hty ih =>
    rw [hasSubtitleEntry_cons5]
    simp only [ttxHasSubtitleType, if_neg hty]
    rw [ih]
    constructor
    · exact Or.inr
    · rintro (h | h)
      · exact absurd h hty
      · exact h
  | case3 l hshape =>
    have hlen : l.length < 5 := by
      match l, hshape with
      | [], _ => simp
      | [a], _ => simp
      | [a, b], _ => simp
      | [a, b, c], _ => simp
      | [a, b, c, d], _ => simp
      | a :: b :: c :: d :: e :: rest, hs => exact absurd rfl (fun h => hs a b c d e rest h)
    rw [iff_false_intro (hasSubtitleEntry_short l hlen)]
    match l, hlen with
    | [], _ => simp [ttxHasSubtitleType]
    | [a], _ => simp [ttxHasSubtitleType]
    | [a, b], _ => simp [ttxHasSubtitleType]
    | [a, b, c], _ => simp [ttxHasSubtitleType]
    | [a, b, c, d], _ => simp [ttxHasSubtitleType]

theorem hasTtxSubtitles_iff (l : List Descriptor) :
    hasTtxSubtitles l = true ↔
      ∃ d ∈ l, d.tag = DID_TELETEXT ∧ ttxHasSubtitleType d.payload = true := by
  induction l with
  | nil => simp [hasTtxSubtitles]
  | cons d t ih =>
    unfold hasTtxSubtitles
    by_cases hd : d.tag = DID_TELETEXT ∧ ttxHasSubtitleType d.payload = true
    · rw [if_pos hd]
      simp only [List.mem_cons, true_iff]
      exact ⟨d, Or.inl rfl, hd⟩
    · rw [if_neg hd]
      rw [ih]
      constructor
      · rintro ⟨e, he, hp⟩
        exact ⟨e, List.mem_cons_of_mem _ he, hp⟩
      · rintro ⟨e, he, hp⟩
        rcases List.mem_cons.mp he with h1 | h2
        · subst h1; exact absurd hp hd
        · exact ⟨e, h2, hp⟩

/-- Claim C8: isSubtitles holds exactly when the descriptor list has
a Subtitling descriptor, or a Teletext descriptor with a complete
5-byte language entry whose type byte shifted right by 3 is 2 or 5;
in particular a sole Teletext language entry with type byte 0x18
yields false and one with 0x10 yields true. -/
theorem isSubtitles_iff (s : PMT.Stream) :
    (PMT.Stream.isSubtitles s = true ↔
      (∃ d ∈ s.descs, d.tag = DID_SUBTITLING) ∨
        ∃ d ∈ s.descs, d.tag = DID_TELETEXT ∧ hasSubtitleEntry d.payload) ∧
    PMT.Stream.isSubtitles ⟨0x06, [⟨DID_TELETEXT, [0x65, 0x6E, 0x67, 0x18, 0x01]⟩]⟩ = false ∧
    PMT.Stream.isSubtitles ⟨0x06, [⟨DID_TELETEXT, [0x65, 0x6E, 0x67, 0x10, 0x01]⟩]⟩ = true := by
  refine ⟨?_, by decide, by decide⟩
  unfold PMT.Stream.isSubtitles
  by_cases hsub : searchTag s.descs DID_SUBTITLING < s.descs.length
  · rw [if_pos hsub]
    simp only [true_iff]
    exact Or.inl ((searchTag_lt_iff _ _).mp hsub)
  · rw [if_neg hsub]
    rw [hasTtxSubtitles_iff]
    constructor
    · rintro ⟨d, hd, ht, hp⟩
      exact Or.inr ⟨d, hd, ht, (ttx_iff _).mp hp⟩
    · rintro (h | ⟨d, hd, ht, hp⟩)
      · exact absurd ((searchTag_lt_iff _ _).mpr h) hsub
      · exact ⟨d, hd, ht, (ttx_iff _).mpr hp⟩

theorem dup_pid_eval : PMT.deserialize dupPidTable
    = ⟨true, 1, true, 7, 256, [], [(257, ⟨27, [⟨5, []⟩, ⟨10, []⟩]⟩)]⟩ := by
  simp [PMT.deserialize, dupPidTable, PMT.deserializeSections, parseStreams, descsAdd,
    GetUInt16, streamsLookup, insertSorted, PID_NULL, TID_PMT,
    and_1FFF_eq, and_0FFF_eq, shiftLeft_or_eq_add]

/-- Counterexample to claim C3 as stated: deserializing a section
that lists PID 0x0101 twice keeps the descriptor parsed at the first
occurrence in front of the one parsed at the second (streams[pid]
returns the existing entry and DescriptorList::add appends), so the
map does not bind the PID to only the last occurrence. -/
theorem duplicate_pid_counterexample :
    (PMT.deserialize dupPidTable).streams
        = [(0x101, ⟨0x1B, [⟨0x05, []⟩, ⟨0x0A, []⟩]⟩)] ∧
    ¬ (PMT.deserialize dupPidTable).streams
        = [(0x101, ⟨0x1B, [⟨0x0A, []⟩]⟩)] := by
  rw [dup_pid_eval]
  exact ⟨rfl, by decide⟩

theorem parseStreams_entry (t pid : Nat) (info rest : List Nat) (m : List (Nat × PMT.Stream))
    (hp : pid < 0x2000) (hl : info.length < 0x1000) :
    parseStreams (esEntryBytes t pid info ++ rest) m
      = parseStreams rest
          (insertSorted pid ⟨t, ((streamsLookup m pid).getD {}).descs ++ descsAdd info⟩ m) := by
  have hshape : esEntryBytes t pid info ++ rest
      = t :: ((pid ||| 0xE000) / 256 % 256) :: ((pid ||| 0xE000) % 256)
        :: ((0xF000 ||| info.length) / 256 % 256) :: ((0xF000 ||| info.length) % 256)
        :: (info ++ rest) := by
    simp [esEntryBytes, PutUInt16_eq]
  rw [hshape]
  rw [parseStreams]
  rw [pcr_recover pid hp, len_recover info.length hl]
  have hmin : min info.length (info ++ rest).length = info.length := by
    simp only [List.length_append]
    omega
  rw [hmin, List.take_left, List.drop_left]

/-- Claim C3 (amended): when a payload holds two stream entries with
the same 13-bit PID, the parsed map binds that PID to the stream type
of the last occurrence, but its descriptor list is the concatenation
of the descriptors parsed at each occurrence in payload order; data
from earlier occurrences is retained. -/
theorem parse_duplicate_pid (t1 t2 pid : Nat) (d1 d2 : List Nat)
    (hp : pid < 0x2000) (h1 : d1.length < 0x1000) (h2 : d2.length < 0x1000) :
    parseStreams (esEntryBytes t1 pid d1 ++ esEntryBytes t2 pid d2) []
      = [(pid, ⟨t2, descsAdd d1 ++ descsAdd d2⟩)] := by
  rw [parseStreams_entry t1 pid d1 _ [] hp h1]
  rw [← List.append_nil (esEntryBytes t2 pid d2)]
  rw [parseStreams_entry t2 pid d2 [] _ hp h2]
  simp [parseStreams, insertSorted, streamsLookup]

/-- Witness for the amended claim C3 at the concrete duplicate-PID
entries of the counterexample table. -/
theorem parse_duplicate_pid_witness :
    parseStreams (esEntryBytes 2 257 [5, 0] ++ esEntryBytes 27 257 [10, 0]) []
      = [(257, ⟨27, descsAdd [5, 0] ++ descsAdd [10, 0]⟩)] :=
  parse_duplicate_pid 2 27 257 [5, 0] [10, 0] (by decide) (by decide) (by decide)

/-- Counterexample to claim C2 as stated: a valid PMT with 204
descriptor-less streams needs a 1024-byte payload, more than the
1021-byte section limit, yet serialize produces a valid one-section
table, silently omitting the stream entry reached when fewer than 5
bytes remain. -/
theorem serialize_overflow_counterexample :
    pmt204._is_valid = true ∧
    MAX_PSI_LONG_SECTION_PAYLOAD_SIZE < pmtPayloadSize pmt204 ∧
    (PMT.serialize pmt204).valid = true ∧
    (PMT.serialize pmt204).sections.length = 1 := by
  refine ⟨rfl, by decide, ?_, ?_⟩ <;> decide

theorem serializeFit_length (ds : List Descriptor) :
    ∀ r : Nat, (serializeFit r ds).1.length = fitSize r ds := by
  induction ds with
  | nil => intro r; simp [serializeFit, fitSize]
  | cons d t ih =>
    intro r
    by_cases h : d.size ≤ r
    · simp only [serializeFit, fitSize, if_pos h, List.length_append]
      rw [ih]
      simp [Descriptor.bytes, Descriptor.size]
      omega
    · simp [serializeFit, fitSize, if_neg h]

theorem fitSize_le (ds : List Descriptor) : ∀ r : Nat, fitSize r ds ≤ r := by
  induction ds with
  | nil => intro r; simp [fitSize]
  | cons d t ih =>
    intro r
    by_cases h : d.size ≤ r
    · simp only [fitSize, if_pos h]
      have := ih (r - d.size)
      omega
    · simp [fitSize, if_neg h]

theorem serializeFit_count_iff (ds : List Descriptor) :
    ∀ r : Nat, ((serializeFit r ds).2 = ds.length ↔ descsSize ds ≤ r) := by
  induction ds with
  | nil => intro r; simp [serializeFit, descsSize]
  | cons d t ih =>
    intro r
    by_cases h : d.size ≤ r
    · simp only [serializeFit, descsSize, List.foldr_cons, if_pos h, List.length_cons,
        Nat.add_right_cancel_iff]
      rw [ih (r - d.size)]
      have : descsSize t = t.foldr (fun d acc => d.size + acc) 0 := rfl
      omega
    · simp only [serializeFit, descsSize, List.foldr_cons, if_neg h, List.length_cons]
      constructor
      · intro h0
        omega
      · intro hle
        omega

theorem fitSize_of_le (ds : List Descriptor) :
    ∀ r : Nat, descsSize ds ≤ r → fitSize r ds = descsSize ds := by
  induction ds with
  | nil => intro r _; simp [fitSize, descsSize]
  | cons d t ih =>
    intro r hle
    simp only [descsSize, List.foldr_cons] at hle
    have hsz : descsSize t = t.foldr (fun d acc => d.size + acc) 0 := rfl
    have hd : d.size ≤ r := by omega
    simp only [fitSize, if_pos hd, descsSize, List.foldr_cons]
    rw [ih (r - d.size) (by omega)]
    omega

theorem serializeStreams_none_iff (ss : List (Nat × PMT.Stream)) :
    ∀ remain : Nat, (serializeStreams ss remain = none ↔ streamsFit remain ss = false) := by
  induction ss with
  | nil => intro remain; simp [serializeStreams, streamsFit]
  | cons e t ih =>
    intro remain
    obtain ⟨pid, s⟩ := e
    by_cases h5 : remain < 5
    · simp [serializeStreams, streamsFit, if_pos h5]
    · simp only [serializeStreams, streamsFit, if_neg h5]
      have hr2 : ¬ remain - 3 < 2 := by omega
      rw [lengthSerialize]
      rw [if_neg hr2]
      simp only []
      by_cases hfit : descsSize s.descs + 2 ≤ remain - 3
      · rw [if_pos hfit]
        have hcount : (serializeFit (remain - 3 - 2) s.descs).2 = s.descs.length :=
          (serializeFit_count_iff s.descs (remain - 3 - 2)).mpr (by omega)
        rw [if_neg (by rw [hcount]; exact fun h => h rfl)]
        have hlen : (PutUInt16 (0xF000 ||| (serializeFit (remain - 3 - 2) s.descs).1.length)
            ++ (serializeFit (remain - 3 - 2) s.descs).1).length
            = 2 + descsSize s.descs := by
          simp only [List.length_append, PutUInt16, List.length_cons, List.length_nil]
          rw [serializeFit_length, fitSize_of_le s.descs (remain - 3 - 2) (by omega)]
        rw [hlen]
        have harith : remain - 3 - (2 + descsSize s.descs) = remain - 5 - descsSize s.descs := by
          omega
        rw [harith]
        rw [← ih (remain - 5 - descsSize s.descs)]
        match hm : serializeStreams t (remain - 5 - descsSize s.descs) with
        | none => simp
        | some rest => simp
      · rw [if_neg hfit]
        have hcount : (serializeFit (remain - 3 - 2) s.descs).2 ≠ s.descs.length := by
          rw [Ne, serializeFit_count_iff]
          omega
        rw [if_pos hcount]
        simp

/-- Claim C2 (amended): serialize leaves the output table invalid
exactly when the PMT is invalid or some stream entry that is reached
with at least 5 bytes remaining has a descriptor list that does not
fully fit behind its 3-byte header and 2-byte length prefix. Program
descriptors that do not fit are silently truncated (their
lengthSerialize result is ignored), and stream entries reached with
fewer than 5 bytes remaining are silently omitted, in both cases
still producing a valid table. -/
theorem serialize_valid_iff (p : PMT) :
    (PMT.serialize p).valid = true ↔
      (p._is_valid = true ∧ streamsFit (1017 - fitSize 1017 p.descs) p.streams = true) := by
  unfold PMT.serialize
  by_cases hv : p._is_valid = false
  · rw [if_pos hv]
    simp [hv]
  · rw [if_neg hv]
    have hv' : p._is_valid = true := by
      cases h : p._is_valid
      · exact absurd h hv
      · rfl
    rw [lengthSerialize]
    have h2 : ¬ MAX_PSI_LONG_SECTION_PAYLOAD_SIZE - 2 < 2 := by
      simp [MAX_PSI_LONG_SECTION_PAYLOAD_SIZE]
    rw [if_neg h2]
    have hlen : (PutUInt16 (0xF000 |||
          (serializeFit (MAX_PSI_LONG_SECTION_PAYLOAD_SIZE - 2 - 2) p.descs).1.length)
        ++ (serializeFit (MAX_PSI_LONG_SECTION_PAYLOAD_SIZE - 2 - 2) p.descs).1).length
        = 2 + fitSize 1017 p.descs := by
      simp only [List.length_append, PutUInt16, List.length_cons, List.length_nil]
      rw [serializeFit_length]
      norm_num [MAX_PSI_LONG_SECTION_PAYLOAD_SIZE]
    simp only []
    rw [hlen]
    have harith : MAX_PSI_LONG_SECTION_PAYLOAD_SIZE - 2 - (2 + fitSize 1017 p.descs)
        = 1017 - fitSize 1017 p.descs := by
      simp [MAX_PSI_LONG_SECTION_PAYLOAD_SIZE]
      omega
    rw [harith]
    match hm : serializeStreams p.streams (1017 - fitSize 1017 p.descs) with
    | none =>
      have := (serializeStreams_none_iff p.streams (1017 - fitSize 1017 p.descs)).mp hm
      simp [this]
    | some sb =>
      have hne : streamsFit (1017 - fitSize 1017 p.descs) p.streams ≠ false := by
        intro hf
        rw [← serializeStreams_none_iff p.streams (1017 - fitSize 1017 p.descs)] at hf
        rw [hm] at hf
        exact absurd hf (by simp)
      have ht : streamsFit (1017 - fitSize 1017 p.descs) p.streams = true := by
        cases h : streamsFit (1017 - fitSize 1017 p.descs) p.streams
        · exact absurd h hne
        · rfl
      simp [hv', ht]
theorem mjdYP_mono (a b : Nat) (h : a ≤ b) : mjdYP a ≤ mjdYP b := by
  unfold mjdYP
  exact Nat.div_le_div_right (by omega)

theorem mjdMP_mono (a b : Nat) (h : a ≤ b) (hyd : mjdYPD a = mjdYPD b) :
    mjdMP a ≤ mjdMP b := by
  unfold mjdMP
  rw [hyd]
  exact Nat.div_le_div_right (by omega)

theorem decodeDateN_interp (B dim d A M : Nat) (hd1 : 1 ≤ d) (hd2 : d ≤ dim)
    (hfirst : decodeDateN (B + 1) = (A, M, 1))
    (hyp : mjdYP (B + 1) = mjdYP (B + dim))
    (hmp : mjdMP (B + 1) = mjdMP (B + dim)) :
    decodeDateN (B + d) = (A, M, d) := by
  have hyd : mjdYP (B + d) = mjdYP (B + 1) := by
    have ha := mjdYP_mono (B + 1) (B + d) (by omega)
    have hb := mjdYP_mono (B + d) (B + dim) (by omega)
    omega
  have hypd : mjdYPD (B + d) = mjdYPD (B + 1) := by
    unfold mjdYPD
    rw [hyd]
  have hypd2 : mjdYPD (B + 1) = mjdYPD (B + dim) := by
    unfold mjdYPD
    rw [hyp]
  have hmd : mjdMP (B + d) = mjdMP (B + 1) := by
    have ha := mjdMP_mono (B + 1) (B + d) (by omega) hypd.symm
    have hb := mjdMP_mono (B + d) (B + dim) (by omega) (hypd.trans hypd2)
    omega
  have hmpd : mjdMPD (B + d) = mjdMPD (B + 1) := by
    unfold mjdMPD
    rw [hmd]
  unfold decodeDateN at hfirst ⊢
  rw [hyd, hmd, hypd, hmpd]
  simp only [Prod.mk.injEq] at hfirst ⊢
  obtain ⟨h1, h2, h3⟩ := hfirst
  exact ⟨h1, h2, by omega⟩

set_option maxRecDepth 100000 in
set_option maxHeartbeats 4000000 in
theorem monthCheck_all : ∀ y < 139, ∀ m < 13, monthCheck y m = true := by
  decide

theorem mjdOfDate_base (y m d : Nat) : mjdOfDate y m d = mjdOfDate y m 0 + d := by
  unfold mjdOfDate
  by_cases h : m ≤ 2
  · simp only [if_pos h]
    omega
  · simp only [if_neg h]
    omega

theorem decodeDateN_of_date (y m d : Nat) (hy : y < 139) (hm1 : 1 ≤ m) (hm2 : m ≤ 12)
    (hd1 : 1 ≤ d) (hd2 : d ≤ daysInMonth (1900 + y) m) (h1900 : y = 0 → 3 ≤ m) :
    decodeDateN (mjdOfDate (1900 + y) m d) = (1900 + y, m, d) := by
  have hc := monthCheck_all y hy m (by omega)
  rw [monthCheck, if_pos ⟨hm1, hm2, h1900⟩] at hc
  simp only [Bool.and_eq_true, decide_eq_true_eq] at hc
  obtain ⟨⟨hfirst, hyp⟩, hmp⟩ := hc
  rw [mjdOfDate_base]
  exact decodeDateN_interp _ (daysInMonth (1900 + y) m) d (1900 + y) m hd1 hd2 hfirst hyp hmp
theorem fdiv_cast_7305 (a : Nat) : (↑a : Int).fdiv 7305 = ((a / 7305 : Nat) : Int) := by
  have h := Int.ofNat_fdiv a 7305
  have h2 : ((7305 : Nat) : Int) = (7305 : Int) := by norm_num
  rw [h2] at h
  exact h.symm

theorem fdiv_cast_100 (a : Nat) : (↑a : Int).fdiv 100 = ((a / 100 : Nat) : Int) := by
  have h := Int.ofNat_fdiv a 100
  have h2 : ((100 : Nat) : Int) = (100 : Int) := by norm_num
  rw [h2] at h
  exact h.symm

theorem fdiv_cast_306001 (a : Nat) : (↑a : Int).fdiv 306001 = ((a / 306001 : Nat) : Int) := by
  have h := Int.ofNat_fdiv a 306001
  have h2 : ((306001 : Nat) : Int) = (306001 : Int) := by norm_num
  rw [h2] at h
  exact h.symm

theorem fdiv_cast_10000 (a : Nat) : (↑a : Int).fdiv 10000 = ((a / 10000 : Nat) : Int) := by
  have h := Int.ofNat_fdiv a 10000
  have h2 : ((10000 : Nat) : Int) = (10000 : Int) := by norm_num
  rw [h2] at h
  exact h.symm

theorem mjdYP_nat_facts (mjd : Nat) (h : 15079 ≤ mjd) :
    mjdYPD mjd ≤ mjd - 15079 ∧ mjdMPD mjd ≤ mjd - mjdYPD mjd - 14957 := by
  have f1 : mjdYP mjd * 7305 ≤ mjd * 20 - 301564 := Nat.div_mul_le_self _ _
  have f2 : mjdYPD mjd * 100 ≤ mjdYP mjd * 36525 := Nat.div_mul_le_self _ _
  have hyd_le : mjdYPD mjd ≤ mjd - 15079 := by
    unfold mjdYPD at f2 ⊢
    unfold mjdYP at f1 ⊢
    omega
  have f4 : mjdMPD mjd * 10000 ≤ mjdMP mjd * 306001 := Nat.div_mul_le_self _ _
  have f3 : mjdMP mjd * 306001 ≤ mjd * 10000 - 149561000 - mjdYPD mjd * 10000 :=
    Nat.div_mul_le_self _ _
  exact ⟨hyd_le, by omega⟩

theorem mjdYPZ_eq (mjd : Nat) (h : 15079 ≤ mjd) : mjdYPZ mjd = (mjdYP mjd : Int) := by
  unfold mjdYPZ
  have hcast : ((mjd : Int) * 20 - 301564) = ((mjd * 20 - 301564 : Nat) : Int) := by omega
  rw [hcast, fdiv_cast_7305]
  rfl

theorem mjdYPDZ_eq (mjd : Nat) (h : 15079 ≤ mjd) : mjdYPDZ mjd = (mjdYPD mjd : Int) := by
  unfold mjdYPDZ
  rw [mjdYPZ_eq mjd h]
  have hcast : ((mjdYP mjd : Int) * 36525) = ((mjdYP mjd * 36525 : Nat) : Int) := by
    push_cast
    ring
  rw [hcast, fdiv_cast_100]
  rfl

theorem mjdMPZ_eq (mjd : Nat) (h : 15079 ≤ mjd) : mjdMPZ mjd = (mjdMP mjd : Int) := by
  have hyd_le := (mjdYP_nat_facts mjd h).1
  unfold mjdMPZ
  rw [mjdYPDZ_eq mjd h]
  have hcast : ((mjd : Int) * 10000 - 149561000 - (mjdYPD mjd : Int) * 10000)
      = ((mjd * 10000 - 149561000 - mjdYPD mjd * 10000 : Nat) : Int) := by omega
  rw [hcast, fdiv_cast_306001]
  rfl

theorem mjdMPDZ_eq (mjd : Nat) (h : 15079 ≤ mjd) : mjdMPDZ mjd = (mjdMPD mjd : Int) := by
  unfold mjdMPDZ
  rw [mjdMPZ_eq mjd h]
  have hcast : ((mjdMP mjd : Int) * 306001) = ((mjdMP mjd * 306001 : Nat) : Int) := by
    push_cast
    ring
  rw [hcast, fdiv_cast_10000]
  rfl

theorem decodeDate_eq_cast (mjd : Nat) (h : 15079 ≤ mjd) :
    decodeDate mjd
      = (((decodeDateN mjd).1 : Int), ((decodeDateN mjd).2.1 : Int),
          ((decodeDateN mjd).2.2 : Int)) := by
  obtain ⟨hyd_le, hmpd_le⟩ := mjdYP_nat_facts mjd h
  have hgen : ∀ A C : Nat, A + 14957 ≤ mjd → C ≤ mjd - A - 14957 →
      (mjd : Int) - 14956 - (A : Int) - (C : Int) = ((mjd - 14956 - A - C : Nat) : Int) := by
    intro A C h1 h2
    omega
  have hthird := hgen (mjdYPD mjd) (mjdMPD mjd) (by omega) hmpd_le
  have hmp4 : 4 ≤ mjdMP mjd := by
    have hnum : 1229000 ≤ mjd * 10000 - 149561000 - mjdYPD mjd * 10000 := by omega
    have hdiv : 1229000 / 306001 ≤ (mjd * 10000 - 149561000 - mjdYPD mjd * 10000) / 306001 :=
      Nat.div_le_div_right hnum
    norm_num at hdiv
    unfold mjdMP
    omega
  unfold decodeDate decodeDateN
  rw [mjdYPZ_eq mjd h, mjdYPDZ_eq mjd h, mjdMPZ_eq mjd h, mjdMPDZ_eq mjd h]
  by_cases hc : mjdMP mjd = 14 ∨ mjdMP mjd = 15
  · have hci : ((mjdMP mjd : Int) = 14 ∨ (mjdMP mjd : Int) = 15) := by omega
    rw [if_pos hci, if_pos hc]
    simp only [Prod.mk.injEq]
    refine ⟨by push_cast; ring, by omega, hthird⟩
  · have hci : ¬ ((mjdMP mjd : Int) = 14 ∨ (mjdMP mjd : Int) = 15) := by omega
    rw [if_neg hci, if_neg hc]
    simp only [Prod.mk.injEq]
    refine ⟨by push_cast; ring, by omega, hthird⟩

theorem bcd_roundtrip (x : Nat) (h : x < 100) : decodeBCD (encodeBCD x) = some x := by
  unfold encodeBCD decodeBCD
  rw [shiftLeft_or_eq_add 4 (x / 10) (x % 10) (by omega)]
  rw [shiftRight4_eq, and_F_eq]
  norm_num
  constructor
  · omega
  · omega

theorem mjd_bytes_recover (mjd : Nat) (h : mjd ≤ 0xFFFF) :
    GetUInt16 (mjd >>> 8) (mjd &&& 0xFF) = mjd := by
  rw [shiftRight8_eq, and_FF_eq, GetUInt16_eq _ _ (by omega)]
  omega

theorem mjdOfDate_lb (y m d : Nat) (hm1 : 1 ≤ m) (hm2 : m ≤ 12) (hd : 1 ≤ d)
    (h1900 : 1900 < y ∨ (y = 1900 ∧ 3 ≤ m)) : 15079 ≤ mjdOfDate y m d := by
  unfold mjdOfDate
  by_cases hm : m ≤ 2
  · simp only [if_pos hm]
    have hy : 1901 ≤ y := by omega
    have hmt : 4284014 / 10000 ≤ (m + 1 + 12 * 1) * 306001 / 10000 := by
      apply Nat.div_le_div_right
      have : 14 ≤ m + 1 + 12 * 1 := by omega
      nlinarith
    norm_num at hmt
    omega
  · simp only [if_neg hm]
    have hmt : 1224004 / 10000 ≤ (m + 1 + 12 * 0) * 306001 / 10000 := by
      apply Nat.div_le_div_right
      have : 4 ≤ m + 1 + 12 * 0 := by omega
      nlinarith
    norm_num at hmt
    omega

theorem mjdOfDate_ub (y m d : Nat) (hm1 : 1 ≤ m) (hd : 1 ≤ d) (hy : 2039 ≤ y) :
    65535 < mjdOfDate y m d := by
  unfold mjdOfDate
  by_cases hm : m ≤ 2
  · simp only [if_pos hm]
    have hyt : 5040450 / 100 ≤ (y - 1900 - 1) * 36525 / 100 := by
      apply Nat.div_le_div_right
      have : 138 ≤ y - 1900 - 1 := by omega
      nlinarith
    have hmt : 4284014 / 10000 ≤ (m + 1 + 12 * 1) * 306001 / 10000 := by
      apply Nat.div_le_div_right
      have : 14 ≤ m + 1 + 12 * 1 := by omega
      nlinarith
    norm_num at hyt hmt
    omega
  · simp only [if_neg hm]
    have hyt : 5076975 / 100 ≤ (y - 1900 - 0) * 36525 / 100 := by
      apply Nat.div_le_div_right
      have : 139 ≤ y - 1900 - 0 := by omega
      nlinarith
    have hmt : 1224004 / 10000 ≤ (m + 1 + 12 * 0) * 306001 / 10000 := by
      apply Nat.div_le_div_right
      have : 4 ≤ m + 1 + 12 * 0 := by omega
      nlinarith
    norm_num at hyt hmt
    omega

theorem mjd_date_recover (t : Time) (hval : validTime t = true)
    (hoa : onOrAfter1900Mar1 t = true)
    (hub : mjdOfDate t.year t.month t.day ≤ 0xFFFF) :
    decodeDate (mjdOfDate t.year t.month t.day)
      = ((t.year : Int), (t.month : Int), (t.day : Int)) := by
  simp only [validTime, decide_eq_true_eq] at hval
  obtain ⟨hm1, hm2, hd1, hd2, _, _, _⟩ := hval
  simp only [onOrAfter1900Mar1, decide_eq_true_eq] at hoa
  have hlb := mjdOfDate_lb t.year t.month t.day hm1 hm2 hd1 (by omega)
  have hyub : t.year < 2039 := by
    by_contra hc
    have := mjdOfDate_ub t.year t.month t.day hm1 hd1 (by omega)
    omega
  have hyy : t.year = 1900 + (t.year - 1900) := by omega
  have hN : decodeDateN (mjdOfDate t.year t.month t.day) = (t.year, t.month, t.day) := by
    rw [hyy]
    rw [hyy] at hd2
    exact decodeDateN_of_date (t.year - 1900) t.month t.day (by omega) hm1 hm2 hd1 hd2
      (by omega)
  rw [decodeDate_eq_cast _ hlb, hN]

/-- Claim C6 (amended): for every well-formed UTC time accepted by
EncodeMJD, DecodeMJD restores it for sizes 2 and 5, and for size 4
when the seconds are zero (the 4-byte form has no seconds field). -/
theorem MJD_roundtrip (t : Time) (size : Nat) (bytes : List Nat)
    (hval : validTime t = true)
    (henc : EncodeMJD t size = some bytes)
    (hsz : size = 2 ∨ size = 5 ∨ (size = 4 ∧ t.second = 0)) :
    DecodeMJD bytes = some t := by
  have hval' := hval
  simp only [validTime, decide_eq_true_eq] at hval'
  obtain ⟨hm1, hm2, hd1, hd2, hh, hmin, hs⟩ := hval'
  rcases hsz with hsz | hsz | ⟨hsz, hsec⟩
  · subst hsz
    unfold EncodeMJD at henc
    norm_num at henc
    cases hoa : onOrAfter1900Mar1 t with
    | false => rw [hoa] at henc; simp at henc
    | true =>
      rw [hoa] at henc
      simp only [Bool.true_eq_false, if_false, reduceIte] at henc
      obtain ⟨-, htod, hub, hbytes⟩ := henc
      subst hbytes
      unfold DecodeMJD
      simp only []
      rw [mjd_bytes_recover _ (by omega)]
      rw [mjd_date_recover t hval hoa (by omega)]
      simp only [Int.toNat_natCast, Option.some.injEq]
      obtain ⟨t1, t2, t3, t4, t5, t6⟩ := t
      obtain ⟨e1, e2, e3⟩ := htod
      simp only at e1 e2 e3
      subst e1 e2 e3
      rfl
  · subst hsz
    unfold EncodeMJD at henc
    norm_num at henc
    cases hoa : onOrAfter1900Mar1 t with
    | false => rw [hoa] at henc; simp at henc
    | true =>
      rw [hoa] at henc
      simp only [Bool.true_eq_false, if_false, reduceIte] at henc
      obtain ⟨-, hub, hbytes⟩ := henc
      subst hbytes
      unfold DecodeMJD
      simp only []
      rw [bcd_roundtrip t.hour (by omega), bcd_roundtrip t.minute (by omega),
        bcd_roundtrip t.second (by omega)]
      simp only []
      rw [mjd_bytes_recover _ (by omega)]
      rw [mjd_date_recover t hval hoa (by omega)]
      simp only [Int.toNat_natCast, Option.some.injEq]
  · subst hsz
    unfold EncodeMJD at henc
    norm_num at henc
    cases hoa : onOrAfter1900Mar1 t with
    | false => rw [hoa] at henc; simp at henc
    | true =>
      rw [hoa] at henc
      simp only [Bool.true_eq_false, if_false, reduceIte] at henc
      obtain ⟨-, hub, hbytes⟩ := henc
      subst hbytes
      unfold DecodeMJD
      simp only []
      rw [bcd_roundtrip t.hour (by omega), bcd_roundtrip t.minute (by omega)]
      simp only []
      rw [mjd_bytes_recover _ (by omega)]
      rw [mjd_date_recover t hval hoa (by omega)]
      simp only [Int.toNat_natCast, Option.some.injEq]
      obtain ⟨t1, t2, t3, t4, t5, t6⟩ := t
      simp only at hsec
      subst hsec
      rfl

/-- Counterexample to claim C6 as stated: EncodeMJD accepts size 4
for 1993-10-13 12:45:30, but the 4-byte form drops the seconds, so
decoding returns 12:45:00, not the original time. -/
theorem mjd_size4_counterexample :
    EncodeMJD ⟨1993, 10, 13, 12, 45, 30⟩ 4 = some [0xC0, 0x79, 0x12, 0x45] ∧
    DecodeMJD [0xC0, 0x79, 0x12, 0x45] = some ⟨1993, 10, 13, 12, 45, 0⟩ ∧
    ¬ ((⟨1993, 10, 13, 12, 45, 0⟩ : Time) = ⟨1993, 10, 13, 12, 45, 30⟩) := by
  refine ⟨by decide, by decide, by decide⟩

/-- Witness for the amended claim C6: scenario S3, 1993-10-13
12:45:00 encoded on 5 bytes as C0 79 12 45 00 decodes to itself. -/
theorem MJD_roundtrip_witness :
    DecodeMJD [0xC0, 0x79, 0x12, 0x45, 0x00] = some ⟨1993, 10, 13, 12, 45, 0⟩ :=
  MJD_roundtrip ⟨1993, 10, 13, 12, 45, 0⟩ 5 [0xC0, 0x79, 0x12, 0x45, 0x00]
    (by decide) (by decide) (Or.inr (Or.inl rfl))

theorem descsBytes_length (ds : List Descriptor) : (descsBytes ds).length = descsSize ds := by
  induction ds with
  | nil => rfl
  | cons d t ih =>
    simp only [descsBytes, List.foldr_cons, List.length_append]
    rw [show (List.foldr (fun d acc => d.bytes ++ acc) [] t) = descsBytes t from rfl, ih]
    simp [Descriptor.bytes, Descriptor.size, descsSize]
    omega

theorem descsAdd_bytes (ds : List Descriptor) : descsAdd (descsBytes ds) = ds := by
  induction ds with
  | nil => simp [descsBytes, descsAdd]
  | cons d t ih =>
    have hshape : descsBytes (d :: t)
        = d.tag :: d.payload.length :: (d.payload ++ descsBytes t) := by
      simp [descsBytes, Descriptor.bytes]
    rw [hshape, descsAdd]
    rw [if_pos (by simp)]
    rw [List.take_left, List.drop_left, ih]

theorem serializeFit_all (ds : List Descriptor) :
    ∀ r : Nat, descsSize ds ≤ r → serializeFit r ds = (descsBytes ds, ds.length) := by
  induction ds with
  | nil => intro r _; rfl
  | cons d t ih =>
    intro r hle
    have hsz : descsSize (d :: t) = d.size + descsSize t := rfl
    have hd : d.size ≤ r := by omega
    simp only [serializeFit, if_pos hd]
    rw [ih (r - d.size) (by omega)]
    simp [descsBytes, List.length_cons]

theorem lengthSerialize_all (ds : List Descriptor) (remain : Nat)
    (h2 : 2 ≤ remain) (hle : descsSize ds + 2 ≤ remain) :
    lengthSerialize ds remain
      = (PutUInt16 (0xF000 ||| descsSize ds) ++ descsBytes ds, ds.length) := by
  rw [lengthSerialize, if_neg (by omega)]
  rw [serializeFit_all ds (remain - 2) (by omega)]
  simp [descsBytes_length]

theorem streamsBytes_cons (e : Nat × PMT.Stream) (t : List (Nat × PMT.Stream)) :
    streamsBytes (e :: t)
      = esEntryBytes e.2.stream_type e.1 (descsBytes e.2.descs) ++ streamsBytes t := by
  simp [streamsBytes, esEntryBytes, descsBytes_length, List.append_assoc]

theorem serializeStreams_all (ss : List (Nat × PMT.Stream)) :
    ∀ remain : Nat, streamsSize ss ≤ remain →
      serializeStreams ss remain = some (streamsBytes ss) := by
  induction ss with
  | nil => intro remain _; rfl
  | cons e t ih =>
    intro remain hle
    obtain ⟨pid, s⟩ := e
    have hsz : streamsSize ((pid, s) :: t) = 5 + descsSize s.descs + streamsSize t := rfl
    rw [serializeStreams, if_neg (by omega)]
    rw [lengthSerialize_all s.descs (remain - 3) (by omega) (by omega)]
    simp only [List.length_append, PutUInt16, List.length_cons, List.length_nil,
      descsBytes_length]
    rw [if_neg (by simp)]
    rw [ih (remain - 3 - (2 + descsSize s.descs)) (by omega)]
    rw [streamsBytes_cons]
    simp [esEntryBytes, PutUInt16, descsBytes_length, List.append_assoc]

theorem streamsLookup_none (m : List (Nat × PMT.Stream)) (pid : Nat)
    (h : ∀ e ∈ m, e.1 ≠ pid) : streamsLookup m pid = none := by
  induction m with
  | nil => rfl
  | cons e t ih =>
    rw [streamsLookup, if_neg (h e (List.mem_cons_self e t))]
    exact ih (fun f hf => h f (List.mem_cons_of_mem e hf))

theorem insertSorted_append (m : List (Nat × PMT.Stream)) (pid : Nat) (s : PMT.Stream)
    (h : ∀ e ∈ m, e.1 < pid) : insertSorted pid s m = m ++ [(pid, s)] := by
  induction m with
  | nil => rfl
  | cons e t ih =>
    have he := h e (List.mem_cons_self e t)
    rw [insertSorted, if_neg (by omega), if_neg (by omega)]
    rw [ih (fun f hf => h f (List.mem_cons_of_mem e hf))]
    rfl

theorem streamsSize_mem (ss : List (Nat × PMT.Stream)) (e : Nat × PMT.Stream)
    (h : e ∈ ss) : 5 + descsSize e.2.descs ≤ streamsSize ss := by
  induction ss with
  | nil => exact absurd h (List.not_mem_nil e)
  | cons f t ih =>
    have hsz : streamsSize (f :: t) = 5 + descsSize f.2.descs + streamsSize t := rfl
    rcases List.mem_cons.mp h with h1 | h2
    · subst h1; omega
    · have := ih h2; omega

theorem parseStreams_bytes (ss : List (Nat × PMT.Stream)) :
    ∀ m : List (Nat × PMT.Stream),
      List.Pairwise (fun a b => a.1 < b.1) ss →
      (∀ e ∈ m, ∀ f ∈ ss, e.1 < f.1) →
      (∀ e ∈ ss, e.1 < 0x2000 ∧ descsSize e.2.descs < 0x1000) →
      parseStreams (streamsBytes ss) m = m ++ ss := by
  induction ss with
  | nil => intro m _ _ _; simp [streamsBytes, parseStreams]
  | cons e t ih =>
    intro m hsort hm hwf
    obtain ⟨pid, s⟩ := e
    obtain ⟨hpid, hds⟩ := hwf (pid, s) (List.mem_cons_self _ t)
    rw [streamsBytes_cons]
    rw [parseStreams_entry s.stream_type pid (descsBytes s.descs) (streamsBytes t) m hpid
      (by rw [descsBytes_length]; exact hds)]
    rw [streamsLookup_none m pid
      (fun f hf => Nat.ne_of_lt (hm f hf (pid, s) (List.mem_cons_self _ t)))]
    simp only [Option.getD_none, descsAdd_bytes]
    have hstream : (⟨s.stream_type, (({} : PMT.Stream)).descs ++ s.descs⟩ : PMT.Stream) = s := by
      show (⟨s.stream_type, [] ++ s.descs⟩ : PMT.Stream) = s
      simp
    rw [hstream]
    rw [insertSorted_append m pid s (fun f hf => hm f hf (pid, s) (List.mem_cons_self _ t))]
    rw [ih (m ++ [(pid, s)]) (List.pairwise_cons.mp hsort).2 ?_ ?_]
    · simp
    · intro f hf g hg
      rcases List.mem_append.mp hf with h1 | h1
      · exact hm f h1 g (List.mem_cons_of_mem _ hg)
      · have : f = (pid, s) := by simpa using h1
        subst this
        exact (List.pairwise_cons.mp hsort).1 g hg
    · intro f hf
      exact hwf f (List.mem_cons_of_mem _ hf)

/-- Claim C1: for every valid PMT whose combined payload fits one
long section (PIDs and PCR PID being 13-bit values and the stream map
sorted by ascending PID, as the std::map iteration order is),
deserializing the serialized table restores the PMT exactly: version,
is_current, service_id, pcr_pid, program descriptors in insertion
order, and the PID-to-stream map with stream types and descriptor
order preserved. -/
theorem PMT_roundtrip (p : PMT)
    (hv : p._is_valid = true)
    (hsort : List.Pairwise (fun a b : Nat × PMT.Stream => a.1 < b.1) p.streams)
    (hpcr : p.pcr_pid < 0x2000)
    (hpid : ∀ e ∈ p.streams, e.1 < 0x2000)
    (hsize : pmtPayloadSize p ≤ MAX_PSI_LONG_SECTION_PAYLOAD_SIZE) :
    PMT.deserialize (PMT.serialize p) = p := by
  have hsz : pmtPayloadSize p = 4 + descsSize p.descs + streamsSize p.streams := rfl
  have hmax : MAX_PSI_LONG_SECTION_PAYLOAD_SIZE = 1021 := rfl
  rw [hmax] at hsize
  unfold PMT.serialize
  rw [if_neg (by rw [hv]; simp)]
  rw [lengthSerialize_all p.descs (MAX_PSI_LONG_SECTION_PAYLOAD_SIZE - 2)
    (by rw [hmax]; omega) (by rw [hmax]; omega)]
  dsimp only
  have hlen : (PutUInt16 (0xF000 ||| descsSize p.descs) ++ descsBytes p.descs).length
      = 2 + descsSize p.descs := by
    simp [PutUInt16, descsBytes_length]
    omega
  rw [hlen]
  rw [serializeStreams_all p.streams
    (MAX_PSI_LONG_SECTION_PAYLOAD_SIZE - 2 - (2 + descsSize p.descs))
    (by rw [hmax]; omega)]
  dsimp only
  unfold PMT.deserialize
  rw [if_neg (by simp [TID_PMT])]
  have hshape : PutUInt16 (p.pcr_pid ||| 0xE000)
      ++ (PutUInt16 (0xF000 ||| descsSize p.descs) ++ descsBytes p.descs)
      ++ streamsBytes p.streams
      = ((p.pcr_pid ||| 0xE000) >>> 8) % 256 :: ((p.pcr_pid ||| 0xE000) % 256)
        :: ((0xF000 ||| descsSize p.descs) >>> 8) % 256
        :: ((0xF000 ||| descsSize p.descs) % 256)
        :: (descsBytes p.descs ++ streamsBytes p.streams) := by
    simp [PutUInt16, List.append_assoc]
  rw [hshape]
  simp only [PMT.deserializeSections]
  simp only [shiftRight8_eq]
  rw [pcr_recover p.pcr_pid hpcr]
  rw [len_recover (descsSize p.descs) (by omega)]
  have hmin : min (descsSize p.descs) ((descsBytes p.descs ++ streamsBytes p.streams).length)
      = descsSize p.descs := by
    rw [List.length_append, descsBytes_length]
    omega
  rw [hmin]
  have htake : List.take (descsSize p.descs) (descsBytes p.descs ++ streamsBytes p.streams)
      = descsBytes p.descs := by
    rw [← descsBytes_length]
    exact List.take_left _ _
  have hdrop : List.drop (descsSize p.descs) (descsBytes p.descs ++ streamsBytes p.streams)
      = streamsBytes p.streams := by
    rw [← descsBytes_length]
    exact List.drop_left _ _
  rw [htake, hdrop, descsAdd_bytes]
  rw [parseStreams_bytes p.streams [] hsort (by simp) ?_]
  · obtain ⟨v1, v2, v3, v4, v5, v6, v7⟩ := p
    simp only at hv
    subst hv
    simp
  · intro e he
    refine ⟨hpid e he, ?_⟩
    have := streamsSize_mem p.streams e he
    omega

/-- Witness for claim C1 at a concrete valid PMT with one program
descriptor and two streams. -/
theorem PMT_roundtrip_witness :
    PMT.deserialize (PMT.serialize
      ⟨true, 1, true, 0x1234, 0x100, [⟨5, [1, 2]⟩],
        [(0x101, ⟨0x1B, [⟨0x0A, []⟩]⟩), (0x102, ⟨0x03, []⟩)]⟩)
      = ⟨true, 1, true, 0x1234, 0x100, [⟨5, [1, 2]⟩],
        [(0x101, ⟨0x1B, [⟨0x0A, []⟩]⟩), (0x102, ⟨0x03, []⟩)]⟩ :=
  PMT_roundtrip _ rfl (by simp [List.pairwise_cons]) (by decide) (by decide) (by decide)
